import Mathlib

/-!
Verification development for the rune workspace code-search engine.

Strings from the Rust source are modelled as lists of characters (`Str`);
`to_lowercase` is modelled character-wise (exact for ASCII input), and byte
positions coincide with character positions under this model.  Floating-point
scores are modelled as rationals.  External collaborators (the blake3 hash,
the SipHash `DefaultHasher`, the tantivy document retrieval, the `regex`
crate's compiler, the jaro-winkler similarity of `strsim`) are parameters of
the embedded functions; the repository's own logic is translated directly.
-/

namespace Rune

abbrev Str := List Char

/-- Character-wise lowercasing, modelling `str::to_lowercase` (exact on ASCII). -/
def lowerChar (c : Char) : Char :=
  match c with
  | 'A' => 'a' | 'B' => 'b' | 'C' => 'c' | 'D' => 'd' | 'E' => 'e' | 'F' => 'f'
  | 'G' => 'g' | 'H' => 'h' | 'I' => 'i' | 'J' => 'j' | 'K' => 'k' | 'L' => 'l'
  | 'M' => 'm' | 'N' => 'n' | 'O' => 'o' | 'P' => 'p' | 'Q' => 'q' | 'R' => 'r'
  | 'S' => 's' | 'T' => 't' | 'U' => 'u' | 'V' => 'v' | 'W' => 'w' | 'X' => 'x'
  | 'Y' => 'y' | 'Z' => 'z'
  | other => other

def toLowerStr (s : Str) : Str := s.map lowerChar

/-- ASCII whitespace test, modelling `char::is_whitespace` on ASCII input. -/
def isWS (c : Char) : Bool :=
  c = ' ' || c = '\t' || c = '\n' || c = '\r'

/-- First index at which `needle` occurs in `s` starting the count at `i`,
modelling `str::find` (substring search). -/
def findSubAux (needle : Str) (s : Str) (i : Nat) : Option Nat :=
  if needle.isPrefixOf s then some i
  else
    match s with
    | [] => none
    | _ :: t => findSubAux needle t (i + 1)

def findSub (hay needle : Str) : Option Nat := findSubAux needle hay 0

/-- Substring containment, modelling `str::contains`. -/
def containsSub (hay needle : Str) : Bool := (findSub hay needle).isSome

/-- Grouping of a string by a separator predicate; groups at separators are
left empty.  `splitSepP p s |>.filter (· ≠ [])` models Rust's
`split(p).filter(|s| !s.is_empty())`. -/
def splitSepGroups (p : Char → Bool) : Str → List Str
  | [] => [[]]
  | c :: cs =>
    let gs := splitSepGroups p cs
    if p c then [] :: gs
    else
      match gs with
      | [] => [[c]]
      | w :: ws => (c :: w) :: ws

/-- Words of a string, modelling `str::split_whitespace`. -/
def splitWS (s : Str) : List Str :=
  (splitSepGroups isWS s).filter (fun w => ¬ w.isEmpty)

/-- Lines of a string, modelling `str::lines` (split on newline, drop one
trailing empty line, strip a trailing carriage return from each line). -/
def rustLines (s : Str) : List Str :=
  let p := s.splitOn '\n'
  let p := if p.getLast? = some [] then p.dropLast else p
  p.map (fun l => if l.getLast? = some '\r' then l.dropLast else l)

/-- Indexed enumeration starting at `n`, modelling `iter().enumerate()`. -/
def enumFromN {α : Type} (n : Nat) : List α → List (Nat × α)
  | [] => []
  | x :: xs => (n, x) :: enumFromN (n + 1) xs

/-- Final path component, modelling `Path::file_name` for ordinary paths. -/
def fileName (path : Str) : Str := (path.splitOn '/').getLastD []

/-- Name of the parent directory, modelling
`path.parent().and_then(|p| p.file_name())` with the `"unknown"` fallback
used by the regex searcher. -/
def parentDirName (path : Str) : Str :=
  match (path.splitOn '/').dropLast.getLast? with
  | some ([]) => "unknown".data
  | some d => d
  | none => "unknown".data

/-! ### C1: deterministic point id of an embedded chunk
(`EmbeddingPipeline::process_file`, src/rune-core/src/embedding/mod.rs:64-102) -/

/-- Lowercase hexadecimal digits of `n`, padded on the left with zeros to a
minimum width of 8, modelling `format!("\x7b:08x\x7d", n)`. -/
def hex8 (n : Nat) : Str :=
  let d := Nat.toDigits 16 n
  List.replicate (8 - d.length) '0' ++ d

/-- The 40-character string `combined` built in `process_file`:
`hash(file_path).to_hex()[..16] ++ hex(start_line, 8) ++ hex(end_line, 8) ++
hash(content).to_hex()[..8]`, over an abstract hex-encoded hash `h`. -/
def mkCombined (h : Str → Str) (filePath : Str) (startLine endLine : Nat)
    (content : Str) : Str :=
  (h filePath).take 16 ++ hex8 startLine ++ hex8 endLine ++ (h content).take 8

/-- The canonical 8-4-4-4-12 hyphenated layout built from `combined`:
`combined[0..8] - combined[8..12] - combined[12..16] - combined[16..20] -
combined[20..32]`. -/
def hyphenate (c : Str) : Str :=
  c.take 8 ++ '-' :: ((c.drop 8).take 4) ++ '-' :: ((c.drop 12).take 4)
    ++ '-' :: ((c.drop 16).take 4) ++ '-' :: ((c.drop 20).take 12)

/-- The vector-store point id assigned to a chunk by `process_file`. -/
def pointId (h : Str → Str) (filePath : Str) (startLine endLine : Nat)
    (content : Str) : Str :=
  hyphenate (mkCombined h filePath startLine endLine content)

/-! ### Search data model (src/rune-core/src/search/mod.rs) -/

inductive SearchMode where
  | Literal | Regex | Symbol | Semantic | Hybrid
deriving DecidableEq

structure SearchQuery where
  query : Str
  mode : SearchMode
  repositories : Option (List Str)
  file_patterns : Option (List Str)
  limit : Nat
  offset : Nat
deriving DecidableEq

inductive MatchType where
  | Exact | Fuzzy | Semantic | Symbol
deriving DecidableEq

structure SearchResult where
  file_path : Str
  repository : Str
  line_number : Nat
  column : Nat
  content : Str
  context_before : List Str
  context_after : List Str
  score : ℚ
  match_type : MatchType
deriving DecidableEq

structure SearchResponse where
  query : SearchQuery
  results : List SearchResult
  total_matches : Nat
  search_time_ms : Nat
  from_cache : Option Bool
deriving DecidableEq

/-! ### Fuzzy matcher (src/rune-core/src/search/fuzzy_match.rs) -/

structure FuzzyConfig where
  similarity_threshold : ℚ
  max_edit_distance : Nat
  use_jaro_winkler : Bool
  enabled : Bool
deriving DecidableEq

/-- The `FuzzyConfig::default()` values with the `RUNE_FUZZY_*` environment
variables unset. -/
def fuzzyConfigDefault : FuzzyConfig :=
  { similarity_threshold := 3/4
    max_edit_distance := 2
    use_jaro_winkler := false
    enabled := true }

/-- Fuel-based recursion for the Levenshtein distance; every recursive call
shortens the combined input, so fuel `xs.length + ys.length` always reaches a
base case before running out (structural recursion keeps the definition
kernel-reducible). -/
def levFuel : Nat → Str → Str → Nat
  | _, [], ys => ys.length
  | _, x :: xs, [] => (x :: xs).length
  | 0, xs, ys => xs.length + ys.length
  | f + 1, x :: xs, y :: ys =>
    if x = y then levFuel f xs ys
    else 1 + min (levFuel f xs ys)
      (min (levFuel f (x :: xs) ys) (levFuel f xs (y :: ys)))

/-- Levenshtein edit distance, modelling `strsim::levenshtein` on character
sequences. -/
def lev (xs ys : Str) : Nat := levFuel (xs.length + ys.length) xs ys

/-- Normalised Levenshtein similarity, modelling
`strsim::normalized_levenshtein`. -/
def normalizedLev (a b : Str) : ℚ :=
  if a.isEmpty ∧ b.isEmpty then 1
  else 1 - (lev a b : ℚ) / (max a.length b.length : ℚ)

/-- `char::is_ascii_punctuation`. -/
def isAsciiPunct (c : Char) : Bool :=
  (33 ≤ c.toNat && c.toNat ≤ 47) || (58 ≤ c.toNat && c.toNat ≤ 64) ||
    (91 ≤ c.toNat && c.toNat ≤ 96) || (123 ≤ c.toNat && c.toNat ≤ 126)

structure FuzzyMatch where
  matched_text : Str
  similarity : ℚ
  edit_distance : Nat
  position : Nat
deriving DecidableEq

/-- Descending-similarity comparison used by the fuzzy matcher's final sort. -/
def simGE (a b : FuzzyMatch) : Prop := b.similarity ≤ a.similarity

instance : DecidableRel simGE :=
  fun a b => inferInstanceAs (Decidable (b.similarity ≤ a.similarity))

/-- Tail of the deduplication: drop entries whose `position` equals that of
the previously retained entry `prev`. -/
def dedupFrom (prev : FuzzyMatch) : List FuzzyMatch → List FuzzyMatch
  | [] => []
  | b :: t =>
    if b.position = prev.position then dedupFrom prev t else b :: dedupFrom b t

/-- Removal of consecutive entries with equal `position`, modelling
`Vec::dedup_by(|a, b| a.position == b.position)` (the first entry of each run
is retained). -/
def dedupRun : List FuzzyMatch → List FuzzyMatch
  | [] => []
  | a :: t => a :: dedupFrom a t

/-- The similarity selector of the fuzzy matcher: `jaro_winkler` when
configured, `normalized_levenshtein` otherwise. -/
def simFn (cfg : FuzzyConfig) (jw : Str → Str → ℚ) (a b : Str) : ℚ :=
  if cfg.use_jaro_winkler then jw a b else normalizedLev a b

/-- The per-window check of `find_substring_fuzzy_matches`: the substring of
`t` of width `w` at char index `i` is kept when its similarity to `q` reaches
the threshold and its edit distance is within the bound. -/
def fuzzySubstringCheck (cfg : FuzzyConfig) (jw : Str → Str → ℚ) (q t : Str)
    (w i : Nat) : Option FuzzyMatch :=
  let sub := (t.drop i).take w
  let sim := simFn cfg jw q sub
  let d := lev q sub
  if cfg.similarity_threshold ≤ sim ∧ d ≤ cfg.max_edit_distance then
    some ⟨sub, sim, d, i⟩
  else none

/-- `FuzzyMatcher::find_substring_fuzzy_matches` over already-lowercased
query `q` and text `t`; `jw` stands for `strsim::jaro_winkler`.  The inner
index range is empty for a zero window size, matching the saturating
arithmetic of the source. -/
def findSubstringFuzzy (cfg : FuzzyConfig) (jw : Str → Str → ℚ) (q t : Str) :
    List FuzzyMatch :=
  if q.length < 3 ∨ 30 < q.length then []
  else
    (List.range' (q.length - cfg.max_edit_distance)
        (q.length + cfg.max_edit_distance + 1 -
          (q.length - cfg.max_edit_distance))).flatMap
      (fun w =>
        (if w = 0 then [] else List.range (t.length - (w - 1))).filterMap
          (fuzzySubstringCheck cfg jw q t w))

/-- The per-word check of `find_fuzzy_matches`: short words are skipped for
longer queries; a word is kept when its similarity to the lowercased query
reaches the threshold and its edit distance is within the bound, positioned
at the word's first occurrence in the lowercased text. -/
def fuzzyWordCheck (cfg : FuzzyConfig) (jw : Str → Str → ℚ) (ql tl : Str)
    (w : Str) : Option FuzzyMatch :=
  if w.length < 2 ∧ 2 < ql.length then none
  else
    let sim := simFn cfg jw ql w
    let d := lev ql w
    if cfg.similarity_threshold ≤ sim ∧ d ≤ cfg.max_edit_distance then
      some ⟨w, sim, d, (findSub tl w).getD 0⟩
    else none

/-- `FuzzyMatcher::find_fuzzy_matches`. -/
def findFuzzyMatches (cfg : FuzzyConfig) (jw : Str → Str → ℚ)
    (query text : Str) : List FuzzyMatch :=
  if ¬cfg.enabled ∨ query.isEmpty ∨ text.isEmpty then []
  else
    let ql := toLowerStr query
    let tl := toLowerStr text
    let words :=
      (splitSepGroups (fun c => isWS c || isAsciiPunct c) tl).filter
        (fun w => ¬w.isEmpty)
    let wordMatches := words.filterMap (fuzzyWordCheck cfg jw ql tl)
    let allMatches :=
      if wordMatches.isEmpty then wordMatches ++ findSubstringFuzzy cfg jw ql tl
      else wordMatches
    dedupRun (List.insertionSort simGE allMatches)

/-! ### Literal searcher (src/rune-core/src/search/literal.rs) -/

/-- A document returned by the tantivy index for a search, with its score. -/
structure TantivyDoc where
  path : Str
  repository : Str
  content : Str
  score : ℚ
deriving DecidableEq

/-- File-pattern test used by all searchers: a pattern containing `*` has all
`*` characters removed and is then tested for substring containment in the
file name; otherwise the file name must equal the pattern. -/
def matchesPattern (pattern fname : Str) : Bool :=
  if pattern.contains '*' then
    containsSub fname (pattern.filter (fun c => !(c == '*')))
  else fname == pattern

/-- The repository and file-pattern filters applied per document by the
literal and symbol searchers. -/
def docPassesFilters (q : SearchQuery) (path repoName : Str) : Bool :=
  (match q.repositories with
   | none => true
   | some repos => repos.contains repoName) &&
  (match q.file_patterns with
   | none => true
   | some pats => pats.any (fun p => matchesPattern p (fileName path)))

/-- The occurrence-scanning `while let Some(pos) = line_lower[start..].find(..)`
loop of `find_matches_in_content`: successive match columns, each next scan
starting at the previous column plus the search term's length.  The fuel
argument bounds the iteration count; `occurrences` supplies enough fuel for
every non-empty search term. -/
def occLoop (termLower : Str) (termLen : Nat) (lineLower : Str) :
    Nat → Nat → List Nat
  | 0, _ => []
  | fuel + 1, start =>
    match findSub (lineLower.drop start) termLower with
    | none => []
    | some pos =>
      (start + pos) :: occLoop termLower termLen lineLower fuel (start + pos + termLen)

def occurrences (termLower : Str) (termLen : Nat) (lineLower : Str) : List Nat :=
  occLoop termLower termLen lineLower (lineLower.length + 1) 0

/-- A `SearchResult` as assembled by the scanning searchers: 1-based line
number and context of up to three lines before and after
(`skip(line_idx.saturating_sub(3)).take(line_idx.min(3))` and
`skip(line_idx + 1).take(3)`). -/
def mkLineResult (lines : List Str) (fp repo : Str) (lineIdx : Nat)
    (line : Str) (col : Nat) (score : ℚ) (mt : MatchType) : SearchResult :=
  { file_path := fp, repository := repo, line_number := lineIdx + 1
    column := col, content := line
    context_before := (lines.drop (lineIdx - 3)).take (min lineIdx 3)
    context_after := (lines.drop (lineIdx + 1)).take 3
    score := score, match_type := mt }

/-- The single-word per-line body of `find_matches_in_content`: one exact
result per occurrence of the lowercased term in the lowercased line, and —
when fuzzy matching is enabled and the line has no exact occurrence — one
fuzzy result per fuzzy match, with score scaled by the similarity. -/
def singleWordLine (cfg : FuzzyConfig) (jw : Str → Str → ℚ) (lines : List Str)
    (fp repo : Str) (searchTerm : Str) (score : ℚ) (lineIdx : Nat)
    (line : Str) : List SearchResult :=
  let termLower := toLowerStr searchTerm
  let lineLower := toLowerStr line
  let exacts := (occurrences termLower searchTerm.length lineLower).map
    (fun col => mkLineResult lines fp repo lineIdx line col score .Exact)
  let fuzzies :=
    if cfg.enabled ∧ ¬ containsSub lineLower termLower then
      (findFuzzyMatches cfg jw searchTerm line).map (fun m =>
        mkLineResult lines fp repo lineIdx line m.position
          (score * m.similarity) .Fuzzy)
    else []
  exacts ++ fuzzies

/-- The multi-word per-line body of `find_matches_in_content`: one result per
line containing any search word, at the first matching word's position, with
a 0.5x score boost per additional matching word. -/
def multiWordLine (lines : List Str) (fp repo : Str) (searchWords : List Str)
    (score : ℚ) (lineIdx : Nat) (line : Str) : List SearchResult :=
  let lineLower := toLowerStr line
  let wordPositions := searchWords.filterMap (fun w => findSub lineLower w)
  match wordPositions with
  | [] => []
  | c :: _ =>
    [mkLineResult lines fp repo lineIdx line c
      (score * (1 + ((wordPositions.length : ℚ) - 1) * (1/2))) .Exact]

/-- `LiteralSearcher::find_matches_in_content`; `jw` models
`strsim::jaro_winkler` for the fuzzy matcher. -/
def findMatchesInContent (cfg : FuzzyConfig) (jw : Str → Str → ℚ)
    (fp repo : Str) (content : Str) (searchTerm : Str) (score : ℚ) :
    List SearchResult :=
  let lines := rustLines content
  let searchWords := (splitWS searchTerm).map toLowerStr
  if searchWords.length = 1 then
    (enumFromN 0 lines).flatMap (fun p =>
      singleWordLine cfg jw lines fp repo searchTerm score p.1 p.2)
  else
    (enumFromN 0 lines).flatMap (fun p =>
      multiWordLine lines fp repo searchWords score p.1 p.2)

/-- `LiteralSearcher::search` after the tantivy index has produced its
document list `docs`. -/
def literalSearch (cfg : FuzzyConfig) (jw : Str → Str → ℚ)
    (docs : List TantivyDoc) (q : SearchQuery) : List SearchResult :=
  docs.flatMap (fun d =>
    if docPassesFilters q d.path d.repository then
      findMatchesInContent cfg jw d.path d.repository d.content q.query d.score
    else [])

/-! ### Symbol searcher (src/rune-core/src/search/symbol.rs) -/

def symbolKeywords : List Str :=
  ["fn ", "function ", "def ", "class ", "struct ", "interface ", "trait ",
    "impl ", "type ", "enum "].map String.data

/-- The definition-line heuristic of `find_symbol_matches`. -/
def isSymbolDefLine (lineLower symbolLower : Str) : Bool :=
  symbolKeywords.any (fun kw =>
    containsSub lineLower kw && containsSub lineLower symbolLower)

/-- `SymbolSearcher::find_symbol_matches`. -/
def findSymbolMatches (fp repo : Str) (content : Str) (symbolQuery : Str)
    (score : ℚ) : List SearchResult :=
  let lines := rustLines content
  (enumFromN 0 lines).flatMap (fun p =>
    let ll := toLowerStr p.2
    let sl := toLowerStr symbolQuery
    if isSymbolDefLine ll sl then
      [mkLineResult lines fp repo p.1 p.2 ((findSub ll sl).getD 0) score .Symbol]
    else [])

/-- `SymbolSearcher::search` after the tantivy index has produced `docs`. -/
def symbolSearch (docs : List TantivyDoc) (q : SearchQuery) : List SearchResult :=
  docs.flatMap (fun d =>
    if docPassesFilters q d.path d.repository then
      findSymbolMatches d.path d.repository d.content q.query d.score
    else [])

/-! ### Regex searcher (src/rune-core/src/search/regex.rs) -/

/-- Error values propagated with `?`, modelling `anyhow::Error` abstractly. -/
structure SErr where
  msg : Str
deriving DecidableEq

/-- A file listed by the storage backend, with the content read from disk. -/
structure RFile where
  path : Str
  content : Str
deriving DecidableEq

/-- The repository and file-pattern filters of `RegexSearcher::search`; the
repository name is derived from the file's parent directory name. -/
def rfilePassesFilters (q : SearchQuery) (path : Str) : Bool :=
  (match q.repositories with
   | none => true
   | some repos => repos.contains (parentDirName path)) &&
  (match q.file_patterns with
   | none => true
   | some pats => pats.any (fun p => matchesPattern p (fileName path)))

/-- `RegexSearcher::find_regex_matches`; a compiled regex is modelled as the
function giving the start columns of `find_iter` on a line. -/
def findRegexMatches (re : Str → List Nat) (fp repo : Str) (content : Str) :
    List SearchResult :=
  let lines := rustLines content
  (enumFromN 0 lines).flatMap (fun p =>
    (re p.2).map (fun col => mkLineResult lines fp repo p.1 p.2 col 1 .Exact))

def regexCacheLookup : List (Str × (Str → List Nat)) → Str → Option (Str → List Nat)
  | [], _ => none
  | (k, v) :: t, key => if k = key then some v else regexCacheLookup t key

/-- `RegexSearcher::search`: compile (with the per-searcher pattern cache),
then scan every listed file that passes the filters.  `compile` models
`Regex::new`, failing exactly on patterns that do not compile. -/
def regexSearch (compile : Str → Except SErr (Str → List Nat))
    (rcache : List (Str × (Str → List Nat))) (files : List RFile)
    (q : SearchQuery) : Except SErr (List SearchResult) :=
  let compiled :=
    match regexCacheLookup rcache q.query with
    | some re => Except.ok re
    | none => compile q.query
  match compiled with
  | .error e => .error e
  | .ok re =>
    .ok (files.flatMap (fun f =>
      if rfilePassesFilters q f.path then
        findRegexMatches re f.path (parentDirName f.path) f.content
      else []))

/-! ### Hybrid searcher (src/rune-core/src/search/hybrid.rs) -/

/-- The accumulator key `(file_path, line_number)`. -/
def keyOf (r : SearchResult) : Str × Nat := (r.file_path, r.line_number)

/-- The reciprocal-rank contribution `1.0 / (k + rank as f32 + 1.0)` with
`k = 60` and `rank` the 0-based index in a retriever's list. -/
def rrfContrib (rank : Nat) : ℚ := 1 / (60 + (rank : ℚ) + 1)

/-- One `entry(key).and_modify(..).or_insert(..)` step of the RRF
accumulation: an existing key accumulates the contribution onto its score and
keeps its stored result; a new key is inserted with the contribution. -/
def addContrib :
    List ((Str × Nat) × SearchResult × ℚ) → SearchResult → ℚ →
      List ((Str × Nat) × SearchResult × ℚ)
  | [], r, c => [(keyOf r, r, c)]
  | (k, r', s') :: t, r, c =>
    if k = keyOf r then (k, r', s' + c) :: t
    else (k, r', s') :: addContrib t r c

/-- The `for (rank, result) in list.into_iter().enumerate()` accumulation
loop of `HybridSearcher::search`. -/
def feedList :
    List ((Str × Nat) × SearchResult × ℚ) → Nat → List SearchResult →
      List ((Str × Nat) × SearchResult × ℚ)
  | acc, _, [] => acc
  | acc, i, r :: rs => feedList (addContrib acc r (rrfContrib i)) (i + 1) rs

/-- The RRF accumulator after processing the literal, symbol and semantic
result lists in order. -/
def hybridAcc (lit sym sem : List SearchResult) :
    List ((Str × Nat) × SearchResult × ℚ) :=
  feedList (feedList (feedList [] 0 lit) 0 sym) 0 sem

/-- Descending-score comparison used by the final
`sort_by(|a, b| b.1.partial_cmp(&a.1).unwrap())`. -/
def scoreGE (a b : SearchResult × ℚ) : Prop := b.2 ≤ a.2

instance : DecidableRel scoreGE :=
  fun a b => inferInstanceAs (Decidable (b.2 ≤ a.2))

instance : IsTotal (SearchResult × ℚ) scoreGE := ⟨fun a b => le_total b.2 a.2⟩

instance : IsTrans (SearchResult × ℚ) scoreGE :=
  ⟨fun _ _ _ h₁ h₂ => le_trans h₂ h₁⟩

/-- Sorting of the accumulator's value collection and rewriting of each
result's score with its fused score.  The value collection is passed as a
parameter because `HashMap::into_values` yields it in unspecified order. -/
def hybridFuseVals (vals : List (SearchResult × ℚ)) : List SearchResult :=
  (List.insertionSort scoreGE vals).map (fun v => { v.1 with score := v.2 })

/-- `HybridSearcher::search` after the three retrievers have produced their
lists, with the accumulator's values taken in insertion order. -/
def hybridFuse (lit sym sem : List SearchResult) : List SearchResult :=
  hybridFuseVals ((hybridAcc lit sym sem).map (fun e => e.2))

/-- The total reciprocal-rank contribution of one retriever list to a key:
the sum of `rrfContrib` over the positions whose result carries that key
(`i` is the rank of the list's head). -/
def listContrib : List SearchResult → (Str × Nat) → Nat → ℚ
  | [], _, _ => 0
  | r :: rs, k, i =>
    (if keyOf r = k then rrfContrib i else 0) + listContrib rs k (i + 1)

/-- The fused score of a key: the summed contributions of the literal,
symbol and semantic lists. -/
def fusedScore (lit sym sem : List SearchResult) (k : Str × Nat) : ℚ :=
  listContrib lit k 0 + listContrib sym k 0 + listContrib sem k 0

/-- The score stored in the accumulator under a key (0 when absent). -/
def getScore : List ((Str × Nat) × SearchResult × ℚ) → (Str × Nat) → ℚ
  | [], _ => 0
  | (k', _, s) :: t, k => if k' = k then s else getScore t k

/-! ### Query-result cache (src/rune-core/src/cache/mod.rs) -/

/-- The `DefaultHasher` family used by `CacheKey::from_query`: `strHash`
models hashing one string, `hInit`/`hStep`/`hFin` model a fresh hasher, one
`hash(&mut hasher)` call per list element, and `finish`. -/
structure HashFns where
  strHash : Str → Nat
  hInit : Nat
  hStep : Nat → Str → Nat
  hFin : Nat → Nat

/-- `format!("\x7b:?\x7d", query.mode)`. -/
def modeTag : SearchMode → Str
  | .Literal => "Literal".data
  | .Regex => "Regex".data
  | .Symbol => "Symbol".data
  | .Semantic => "Semantic".data
  | .Hybrid => "Hybrid".data

structure CacheKey where
  query_hash : Nat
  mode : Str
  repositories_hash : Nat
  file_patterns_hash : Nat
  limit : Nat
  offset : Nat
deriving DecidableEq

/-- The optional-list hashing of `CacheKey::from_query`: a fresh hasher is
finished directly when the option is `None`, and after one step per element
when it is `Some`. -/
def optListHash (hf : HashFns) : Option (List Str) → Nat
  | none => hf.hFin hf.hInit
  | some l => hf.hFin (l.foldl hf.hStep hf.hInit)

/-- `CacheKey::from_query`. -/
def cacheKeyFromQuery (hf : HashFns) (q : SearchQuery) : CacheKey :=
  { query_hash := hf.strHash q.query
    mode := modeTag q.mode
    repositories_hash := optListHash hf q.repositories
    file_patterns_hash := optListHash hf q.file_patterns
    limit := q.limit
    offset := q.offset }

structure CachedResult where
  response : SearchResponse
  cached_at : Nat
  access_count : Nat
  last_accessed : Nat
deriving DecidableEq

structure CacheConfig where
  l1_max_entries : Nat
  l1_ttl : Nat
  min_query_length : Nat

/-- `CacheConfig::default()`: 10000 entries, 300-second TTL, minimum query
length 2 (times are modelled in seconds). -/
def cacheConfigDefault : CacheConfig :=
  { l1_max_entries := 10000, l1_ttl := 300, min_query_length := 2 }

/-- `CachedResult::is_expired`: the elapsed time strictly exceeds the TTL. -/
def isExpired (now : Nat) (e : CachedResult) (ttl : Nat) : Bool :=
  ttl < now - e.cached_at

abbrev CacheState := List (CacheKey × CachedResult)

def stLookup : CacheState → CacheKey → Option CachedResult
  | [], _ => none
  | (k, e) :: t, key => if k = key then some e else stLookup t key

def stRemove : CacheState → CacheKey → CacheState
  | [], _ => []
  | (k, e) :: t, key =>
    if k = key then stRemove t key else (k, e) :: stRemove t key

/-- `CachedResult::touch` applied to the entry under `key`. -/
def stTouch (st : CacheState) (key : CacheKey) (now : Nat) : CacheState :=
  st.map (fun kv =>
    if kv.1 = key then
      (kv.1, { kv.2 with access_count := kv.2.access_count + 1, last_accessed := now })
    else kv)

/-- `DashMap::insert`: replaces the entry under the key if present, else adds
a new entry. -/
def stInsert (st : CacheState) (key : CacheKey) (e : CachedResult) : CacheState :=
  if (stLookup st key).isSome then
    st.map (fun kv => if kv.1 = key then (kv.1, e) else kv)
  else st ++ [(key, e)]

/-- `MultiTierCache::evict_lru`: remove the first entry holding the strictly
smallest `last_accessed`, starting the comparison from the current time. -/
def evictLRU (now : Nat) (st : CacheState) : CacheState :=
  let oldest := st.foldl
    (fun best kv =>
      if kv.2.last_accessed < best.2 then (some kv.1, kv.2.last_accessed) else best)
    ((none : Option CacheKey), now)
  match oldest.1 with
  | some k => stRemove st k
  | none => st

/-- `MultiTierCache::get`. -/
def cacheGet (cfg : CacheConfig) (hf : HashFns) (now : Nat) (q : SearchQuery)
    (st : CacheState) : Option SearchResponse × CacheState :=
  if q.query.length < cfg.min_query_length then (none, st)
  else
    let key := cacheKeyFromQuery hf q
    match stLookup st key with
    | some e =>
      if ¬ isExpired now e cfg.l1_ttl then (some e.response, stTouch st key now)
      else (none, stRemove st key)
    | none => (none, st)

/-- `MultiTierCache::put`. -/
def cachePut (cfg : CacheConfig) (hf : HashFns) (now : Nat) (q : SearchQuery)
    (resp : SearchResponse) (st : CacheState) : CacheState :=
  if q.query.length < cfg.min_query_length then st
  else
    let key := cacheKeyFromQuery hf q
    let st' := if cfg.l1_max_entries ≤ st.length then evictLRU now st else st
    stInsert st' key
      { response := resp, cached_at := now, access_count := 1, last_accessed := now }

/-! ### Search engine (src/rune-core/src/search/mod.rs, `SearchEngine::search`) -/

/-- The response assembled on a cache miss: `total_matches` is the full
result count and the returned slice is `skip offset` then `take limit`. -/
def freshResponse (q : SearchQuery) (L : List SearchResult) (ms : Nat) :
    SearchResponse :=
  { query := q
    results := (L.drop q.offset).take q.limit
    total_matches := L.length
    search_time_ms := ms
    from_cache := some false }

/-- `SearchEngine::search` with the dispatched retriever's outcome passed as
`retr` and the elapsed wall time as `ms`.  Returns the caller's view and the
cache state left behind. -/
def engineSearch (cfg : CacheConfig) (hf : HashFns)
    (retr : Except SErr (List SearchResult)) (ms now : Nat) (q : SearchQuery)
    (st : CacheState) : Except SErr SearchResponse × CacheState :=
  match cacheGet cfg hf now q st with
  | (some resp, st') => (.ok { resp with from_cache := some true }, st')
  | (none, st') =>
    match retr with
    | .error e => (.error e, st')
    | .ok L =>
      let resp := freshResponse q L ms
      (.ok resp, cachePut cfg hf now q resp st')

/-! ### Spec-side pattern semantics, for comparison with `matchesPattern` -/

/-- Modelled from the spec: file-pattern matching described as "glob-style,
`*` matches any substring; exact match if no `*`" — each `*` stands for an
arbitrary (possibly empty) character sequence and all other characters must
match exactly.  This is the specification's semantics, stated only to be
compared with the source's `matchesPattern`. -/
def globFuel : Nat → Str → Str → Bool
  | _, [], s => s.isEmpty
  | 0, _ :: _, _ => false
  | f + 1, '*' :: ps, s =>
    globFuel f ps s ||
      (match s with
       | [] => false
       | _ :: s' => globFuel f ('*' :: ps) s')
  | f + 1, p :: ps, s =>
    match s with
    | [] => false
    | c :: s' => (p = c) && globFuel f ps s'

def globMatch (p s : Str) : Bool := globFuel (p.length + s.length + 1) p s

/-! ### Concrete data used by witnesses and counterexamples -/

/-- A stand-in for `strsim::jaro_winkler`, unused under the default
configuration (`use_jaro_winkler = false`). -/
def jw0 : Str → Str → ℚ := fun _ _ => 0

/-- A concrete instantiation of the abstract `DefaultHasher` family. -/
def hfX : HashFns :=
  { strHash := fun s => s.length
    hInit := 0
    hStep := fun h s => h + s.length + 1
    hFin := id }

/-- A concrete hex-encoded hash stand-in of the correct output length. -/
def hash64 : Str → Str := fun _ => List.replicate 64 'a'

def qLit : SearchQuery :=
  { query := "foo".data, mode := .Literal, repositories := none
    file_patterns := none, limit := 10, offset := 0 }

def qLitEmptyRepos : SearchQuery := { qLit with repositories := some [] }

def docsOne : List TantivyDoc :=
  [{ path := "a/x.rs".data, repository := "r".data, content := "foo".data
     score := 1 }]

/-- A document whose file name `x.rsy` is not glob-matched by `*.rs` but is
accepted by the source's strip-and-contain pattern test. -/
def docsRsy : List TantivyDoc :=
  [{ path := "a/x.rsy".data, repository := "r".data, content := "foo".data
     score := 1 }]

def qLitPatRs : SearchQuery := { qLit with file_patterns := some ["*.rs".data] }

/-- A multi-word query whose literal results come out in ascending score
order: the second line matches both words and gets the 1.5x boost. -/
def qMulti : SearchQuery := { qLit with query := "foo bar".data }

def docsMulti : List TantivyDoc :=
  [{ path := "a/m.rs".data, repository := "r".data
     content := ("foo\nfoo bar").data, score := 1 }]

/-- A single-word query one typo away from the indexed word, producing a
fuzzy match under the default configuration. -/
def qTypo : SearchQuery := { qLit with query := "functoin".data }

def docsTypo : List TantivyDoc :=
  [{ path := "a/f.rs".data, repository := "r".data
     content := "function x".data, score := 1 }]

/-- A fuzzy configuration whose threshold comparisons stay on literal
rationals, with a constant stand-in for `strsim::jaro_winkler`. -/
def cfg8 : FuzzyConfig :=
  { similarity_threshold := 1, max_edit_distance := 2
    use_jaro_winkler := true, enabled := true }

def jw1 : Str → Str → ℚ := fun _ _ => 1

def lines8 : List Str := rustLines ("function x").data

/-- The fuzzy result produced for query `functoin` on content `function x`
under `cfg8`/`jw1`. -/
def rFuzzy8 : SearchResult :=
  mkLineResult lines8 ("a/f.rs").data ("r").data 0 ("function x").data 0
    (1 * 1) .Fuzzy

def linesMulti : List Str := rustLines ("foo\nfoo bar").data

/-- The two literal results of the multi-word query `foo bar` on
`foo\nfoo bar`: the first line matches one word, the second both. -/
def rMultiA : SearchResult :=
  mkLineResult linesMulti ("a/m.rs").data ("r").data 0 ("foo").data 0
    (1 * (1 + (((1 : Nat) : ℚ) - 1) * (1/2))) .Exact

def rMultiB : SearchResult :=
  mkLineResult linesMulti ("a/m.rs").data ("r").data 1 ("foo bar").data 0
    (1 * (1 + (((2 : Nat) : ℚ) - 1) * (1/2))) .Exact

def resA : SearchResult :=
  { file_path := "a".data, repository := "r".data, line_number := 1
    column := 0, content := "x".data, context_before := [], context_after := []
    score := 1, match_type := .Exact }

def resB : SearchResult := { resA with line_number := 2 }

def pageL : List SearchResult := [resA, resB]

def qPage1 : SearchQuery := { qLit with limit := 1 }

def respEmpty : SearchResponse :=
  { query := qLit, results := [], total_matches := 0, search_time_ms := 0
    from_cache := some false }

def entryExp : CachedResult :=
  { response := respEmpty, cached_at := 0, access_count := 1, last_accessed := 0 }

/-- A cache holding one entry for `qLit` created at time 0. -/
def stExpired : CacheState := [(cacheKeyFromQuery hfX qLit, entryExp)]

def qFilt : SearchQuery :=
  { qLit with repositories := some ["r".data]
              file_patterns := some ["*.rs".data] }

/-- The single literal result of `qFilt` on `docsOne`. -/
def rSpec : SearchResult :=
  mkLineResult (rustLines ("foo").data) ("a/x.rs").data ("r").data 0
    ("foo").data 0 1 .Exact

def errX : SErr := { msg := "invalid regex".data }

/-- A compiler stand-in for `Regex::new` on a pattern that fails to parse. -/
def compileFail : Str → Except SErr (Str → List Nat) := fun _ => .error errX

def qRegex : SearchQuery := { qLit with query := "(ab".data, mode := .Regex }

/-! ## Theorems -/

theorem hex8_length_ge (n : Nat) : 8 ≤ (hex8 n).length := by
  simp only [hex8, List.length_append, List.length_replicate]
  omega

theorem hyphenate_append_of_le (A t : Str) (hA : 32 ≤ A.length) :
    hyphenate (A ++ t) = hyphenate A := by
  simp only [hyphenate]
  rw [List.take_append_of_le_length (by omega : (8:Nat) ≤ A.length),
    List.drop_append_of_le_length (by omega : (8:Nat) ≤ A.length),
    List.drop_append_of_le_length (by omega : (12:Nat) ≤ A.length),
    List.drop_append_of_le_length (by omega : (16:Nat) ≤ A.length),
    List.drop_append_of_le_length (by omega : (20:Nat) ≤ A.length),
    List.take_append_of_le_length
      (show 4 ≤ (A.drop 8).length by rw [List.length_drop]; omega),
    List.take_append_of_le_length
      (show 4 ≤ (A.drop 12).length by rw [List.length_drop]; omega),
    List.take_append_of_le_length
      (show 4 ≤ (A.drop 16).length by rw [List.length_drop]; omega),
    List.take_append_of_le_length
      (show 12 ≤ (A.drop 20).length by rw [List.length_drop]; omega)]

/-- C1: the point id built by `EmbeddingPipeline::process_file` does NOT
depend on the chunk's content.  The hyphenated layout consumes only
`combined[0..32]`, which holds the 16-character file-path-hash slice and the
16 hex digits of the line range; the content-hash characters occupy positions
32..40 of `combined` and are discarded.  So two chunks with the same file
path and line range but different content receive the same id, contradicting
the claim (the hash is abstract; only its 64-character hex output length is
used). -/
theorem pointId_ignores_content (h : Str → Str) (filePath : Str)
    (startLine endLine : Nat) (c₁ c₂ : Str)
    (hlen : 16 ≤ (h filePath).length) :
    pointId h filePath startLine endLine c₁
      = pointId h filePath startLine endLine c₂ := by
  have hA : 32 ≤ ((h filePath).take 16 ++ (hex8 startLine ++ hex8 endLine)).length := by
    have h₁ := hex8_length_ge startLine
    have h₂ := hex8_length_ge endLine
    simp only [List.length_append, List.length_take]
    omega
  have key : ∀ t : Str,
      hyphenate ((h filePath).take 16 ++ (hex8 startLine ++ (hex8 endLine ++ t)))
        = hyphenate ((h filePath).take 16 ++ (hex8 startLine ++ hex8 endLine)) := by
    intro t
    rw [show (h filePath).take 16 ++ (hex8 startLine ++ (hex8 endLine ++ t))
          = ((h filePath).take 16 ++ (hex8 startLine ++ hex8 endLine)) ++ t by
        simp [List.append_assoc]]
    exact hyphenate_append_of_le _ _ hA
  simp only [pointId, mkCombined, List.append_assoc]
  rw [key, key]

/-- C1 witness: at file path `a.rs`, line range 1–2, the contents `x` and `y`
receive the same point id. -/
theorem pointId_ignores_content_witness :
    pointId hash64 ("a.rs".data) 1 2 ("x".data)
      = pointId hash64 ("a.rs".data) 1 2 ("y".data) :=
  pointId_ignores_content _ _ _ _ _ _ (by decide)

/-- C2 (amended): cache keys are componentwise; in particular a query with no
repository filter and the same query with an empty repository-filter list
always receive the same cache key, and likewise for file patterns, because
`CacheKey::from_query` leaves the hasher untouched in both cases. -/
theorem cacheKey_none_eq_some_empty (hf : HashFns) (q : SearchQuery) :
    cacheKeyFromQuery hf { q with repositories := none }
        = cacheKeyFromQuery hf { q with repositories := some [] }
      ∧ cacheKeyFromQuery hf { q with file_patterns := none }
        = cacheKeyFromQuery hf { q with file_patterns := some [] } := by
  constructor <;> simp [cacheKeyFromQuery, optListHash]

/-- C2 counterexample: a query without a repository filter and the same query
with an empty repository-filter list share one cache key, yet their literal
result sets differ (the empty filter excludes every document), refuting "keys
are equal iff the result sets agree". -/
theorem cacheKey_collision_counterexample :
    cacheKeyFromQuery hfX qLit = cacheKeyFromQuery hfX qLitEmptyRepos
      ∧ literalSearch fuzzyConfigDefault jw0 docsOne qLit
          ≠ literalSearch fuzzyConfigDefault jw0 docsOne qLitEmptyRepos := by
  constructor
  · rfl
  · decide

theorem stLookup_stRemove (st : CacheState) (key : CacheKey) :
    stLookup (stRemove st key) key = none := by
  induction st with
  | nil => rfl
  | cons kv t ih =>
    rcases kv with ⟨k, e⟩
    by_cases h : k = key <;> simp [stRemove, stLookup, h, ih]

theorem cacheGet_none_lookup (cfg : CacheConfig) (hf : HashFns) (now : Nat)
    (q : SearchQuery) (st : CacheState)
    (h : (cacheGet cfg hf now q st).1 = none)
    (hmin : cfg.min_query_length ≤ q.query.length) :
    stLookup (cacheGet cfg hf now q st).2 (cacheKeyFromQuery hf q) = none := by
  unfold cacheGet at h ⊢
  rw [if_neg (by omega : ¬ q.query.length < cfg.min_query_length)] at h ⊢
  rcases hl : stLookup st (cacheKeyFromQuery hf q) with _ | e
  · simp only [hl]
  · simp only [hl] at h ⊢
    by_cases hexp : isExpired now e cfg.l1_ttl = true
    · simp [hexp, stLookup_stRemove]
    · simp [hexp] at h

theorem engineSearch_of_miss (cfg : CacheConfig) (hf : HashFns)
    (L : List SearchResult) (ms now : Nat) (q : SearchQuery) (st : CacheState)
    (h : (cacheGet cfg hf now q st).1 = none) :
    (engineSearch cfg hf (.ok L) ms now q st).1 = .ok (freshResponse q L ms) := by
  unfold engineSearch
  rcases hg : cacheGet cfg hf now q st with ⟨o, stx⟩
  rw [hg] at h
  simp only at h
  subst h
  rfl

/-- C3: pagination correctness.  On cache misses, searching a query and then
the same query with offset advanced by the limit yields: an unchanged
`total_matches` (the full pre-slice result count), a concatenation equal to
the next `2 * limit` results of the unpaginated sequence (order-consistent
continuation), and — when the underlying result list has no duplicates —
disjoint result pages. -/
theorem pagination_correct (cfg : CacheConfig) (hf : HashFns)
    (L : List SearchResult) (ms ms' now now' : Nat) (q : SearchQuery)
    (st st' : CacheState)
    (h₁ : (cacheGet cfg hf now q st).1 = none)
    (h₂ : (cacheGet cfg hf now' { q with offset := q.offset + q.limit } st').1 = none) :
    (engineSearch cfg hf (.ok L) ms now q st).1 = .ok (freshResponse q L ms)
    ∧ (engineSearch cfg hf (.ok L) ms' now' { q with offset := q.offset + q.limit } st').1
        = .ok (freshResponse { q with offset := q.offset + q.limit } L ms')
    ∧ (freshResponse q L ms).total_matches
        = (freshResponse { q with offset := q.offset + q.limit } L ms').total_matches
    ∧ (freshResponse q L ms).results
          ++ (freshResponse { q with offset := q.offset + q.limit } L ms').results
        = (L.drop q.offset).take (q.limit + q.limit)
    ∧ (L.Nodup →
        (freshResponse q L ms).results.Disjoint
          (freshResponse { q with offset := q.offset + q.limit } L ms').results) := by
  refine ⟨engineSearch_of_miss cfg hf L ms now q st h₁,
    engineSearch_of_miss cfg hf L ms' now' _ st' h₂, rfl, ?_, ?_⟩
  · simp only [freshResponse]
    rw [List.take_add, List.drop_drop]
  · intro hnd
    simp only [freshResponse]
    have hM : (L.drop q.offset).Nodup := (List.drop_sublist _ _).nodup hnd
    have hsplit :
        ((L.drop q.offset).take q.limit ++ (L.drop q.offset).drop q.limit).Nodup := by
      rw [List.take_append_drop]; exact hM
    have hdisj := (List.nodup_append.1 hsplit).2.2
    intro a ha hb
    refine hdisj ha ?_
    rw [← List.drop_drop] at hb
    exact List.take_subset _ _ hb

/-- C3 witness: a concrete two-element result list, page size 1. -/
theorem pagination_correct_witness :
    (freshResponse qPage1 pageL 0).results.Disjoint
      (freshResponse { qPage1 with offset := qPage1.offset + qPage1.limit } pageL 0).results
    ∧ (freshResponse qPage1 pageL 0).total_matches
        = (freshResponse { qPage1 with offset := qPage1.offset + qPage1.limit } pageL 0).total_matches := by
  have h := pagination_correct cacheConfigDefault hfX pageL 0 0 0 0 qPage1 [] []
    (by decide) (by decide)
  exact ⟨h.2.2.2.2 (by decide), h.2.2.1⟩

/-- C6: cache freshness.  A cached response is served only when an entry for
the query's key exists whose age is at most the TTL; an entry older than the
TTL is removed by the lookup and the search is recomputed rather than served
from cache; the default TTL is 300 seconds (5 minutes). -/
theorem cache_freshness (cfg : CacheConfig) (hf : HashFns) (ms now : Nat)
    (q : SearchQuery) (st : CacheState) :
    (∀ resp, (cacheGet cfg hf now q st).1 = some resp →
      ∃ e, stLookup st (cacheKeyFromQuery hf q) = some e
        ∧ now - e.cached_at ≤ cfg.l1_ttl ∧ resp = e.response)
    ∧ (∀ e, stLookup st (cacheKeyFromQuery hf q) = some e →
        cfg.l1_ttl < now - e.cached_at →
        cfg.min_query_length ≤ q.query.length →
        cacheGet cfg hf now q st = (none, stRemove st (cacheKeyFromQuery hf q))
          ∧ ∀ L, (engineSearch cfg hf (.ok L) ms now q st).1
              = .ok (freshResponse q L ms))
    ∧ cacheConfigDefault.l1_ttl = 300 := by
  refine ⟨?_, ?_, rfl⟩
  · intro resp hresp
    unfold cacheGet at hresp
    by_cases hlen : q.query.length < cfg.min_query_length
    · simp [hlen] at hresp
    · rw [if_neg hlen] at hresp
      rcases hl : stLookup st (cacheKeyFromQuery hf q) with _ | e
      · simp only [hl] at hresp; simp at hresp
      · simp only [hl] at hresp
        by_cases hexp : isExpired now e cfg.l1_ttl = true
        · simp [hexp] at hresp
        · simp only [hexp, Bool.false_eq_true, not_false_eq_true, if_true] at hresp
          refine ⟨e, rfl, ?_, ?_⟩
          · simpa [isExpired, not_lt] using hexp
          · simpa using hresp.symm
  · intro e hl hexp hmin
    have hget : cacheGet cfg hf now q st
        = (none, stRemove st (cacheKeyFromQuery hf q)) := by
      unfold cacheGet
      rw [if_neg (by omega : ¬ q.query.length < cfg.min_query_length)]
      simp only [hl]
      simp [isExpired, hexp]
    refine ⟨hget, fun L => engineSearch_of_miss cfg hf L ms now q st ?_⟩
    rw [hget]

/-- C6 witness: a 301-second-old entry under the default 300-second TTL is
removed by the lookup and not served. -/
theorem cache_freshness_witness :
    cacheGet cacheConfigDefault hfX 301 qLit stExpired
      = (none, stRemove stExpired (cacheKeyFromQuery hfX qLit))
    ∧ (engineSearch cacheConfigDefault hfX (.ok []) 0 301 qLit stExpired).1
      = .ok (freshResponse qLit [] 0) := by
  have h := (cache_freshness cacheConfigDefault hfX 0 301 qLit stExpired).2.1
    entryExp (by decide) (by decide) (by decide)
  exact ⟨h.1, h.2 []⟩

/-- C9: a regex-mode query whose pattern fails to compile surfaces the error
to the caller, and the query-result cache is left with no entry under the
query's key, so a subsequent identical query misses and recomputes. -/
theorem regex_error_no_cache (cfg : CacheConfig) (hf : HashFns)
    (compile : Str → Except SErr (Str → List Nat))
    (rcache : List (Str × (Str → List Nat))) (files : List RFile)
    (ms now : Nat) (q : SearchQuery) (st : CacheState) (e : SErr)
    (_hmode : q.mode = .Regex)
    (hcomp : compile q.query = .error e)
    (hcache : regexCacheLookup rcache q.query = none)
    (hmin : cfg.min_query_length ≤ q.query.length)
    (hmiss : (cacheGet cfg hf now q st).1 = none) :
    (engineSearch cfg hf (regexSearch compile rcache files q) ms now q st).1 = .error e
    ∧ stLookup
        (engineSearch cfg hf (regexSearch compile rcache files q) ms now q st).2
        (cacheKeyFromQuery hf q) = none := by
  have hre : regexSearch compile rcache files q = .error e := by
    unfold regexSearch
    rw [hcache, hcomp]
  have hpost := cacheGet_none_lookup cfg hf now q st hmiss hmin
  unfold engineSearch
  rcases hg : cacheGet cfg hf now q st with ⟨o, stx⟩
  rw [hg] at hmiss hpost
  simp only at hmiss hpost
  subst hmiss
  rw [hre]
  exact ⟨rfl, hpost⟩

/-- C9 witness: an uncompilable pattern `(ab` against an empty cache. -/
theorem regex_error_no_cache_witness :
    (engineSearch cacheConfigDefault hfX (regexSearch compileFail [] [] qRegex)
        0 0 qRegex []).1 = .error errX
    ∧ stLookup
        (engineSearch cacheConfigDefault hfX (regexSearch compileFail [] [] qRegex)
          0 0 qRegex []).2
        (cacheKeyFromQuery hfX qRegex) = none :=
  regex_error_no_cache cacheConfigDefault hfX compileFail [] [] 0 0 qRegex [] errX
    rfl rfl rfl (by decide) rfl

theorem mem_enumFromN {α : Type} (n : Nat) (l : List α) (p : Nat × α)
    (h : p ∈ enumFromN n l) : p.2 ∈ l := by
  induction l generalizing n with
  | nil => simp [enumFromN] at h
  | cons x xs ih =>
    simp only [enumFromN] at h
    rcases List.mem_cons.1 h with rfl | h
    · simp
    · exact .tail _ (ih _ h)

theorem mem_singleWordLine_fields (cfg : FuzzyConfig) (jw : Str → Str → ℚ)
    (lines : List Str) (fp repo term : Str) (score : ℚ) (i : Nat) (line : Str)
    (r : SearchResult) (hr : r ∈ singleWordLine cfg jw lines fp repo term score i line) :
    r.file_path = fp ∧ r.repository = repo := by
  simp only [singleWordLine] at hr
  rcases List.mem_append.1 hr with h | h
  · obtain ⟨col, -, rfl⟩ := List.mem_map.1 h
    exact ⟨rfl, rfl⟩
  · split at h
    · obtain ⟨m, -, rfl⟩ := List.mem_map.1 h
      exact ⟨rfl, rfl⟩
    · simp at h

theorem mem_multiWordLine_fields (lines : List Str) (fp repo : Str)
    (searchWords : List Str) (score : ℚ) (i : Nat) (line : Str)
    (r : SearchResult) (hr : r ∈ multiWordLine lines fp repo searchWords score i line) :
    r.file_path = fp ∧ r.repository = repo := by
  simp only [multiWordLine] at hr
  split at hr
  · simp at hr
  · rcases List.mem_cons.1 hr with rfl | h
    · exact ⟨rfl, rfl⟩
    · simp at h

theorem mem_findMatches_fields (cfg : FuzzyConfig) (jw : Str → Str → ℚ)
    (fp repo content term : Str) (score : ℚ) (r : SearchResult)
    (hr : r ∈ findMatchesInContent cfg jw fp repo content term score) :
    r.file_path = fp ∧ r.repository = repo := by
  simp only [findMatchesInContent] at hr
  split at hr
  · obtain ⟨p, -, hp⟩ := List.mem_flatMap.1 hr
    exact mem_singleWordLine_fields _ _ _ _ _ _ _ _ _ _ hp
  · obtain ⟨p, -, hp⟩ := List.mem_flatMap.1 hr
    exact mem_multiWordLine_fields _ _ _ _ _ _ _ _ hp

theorem mem_findSymbolMatches_fields (fp repo content symQ : Str) (score : ℚ)
    (r : SearchResult) (hr : r ∈ findSymbolMatches fp repo content symQ score) :
    r.file_path = fp ∧ r.repository = repo := by
  simp only [findSymbolMatches] at hr
  obtain ⟨p, -, hp⟩ := List.mem_flatMap.1 hr
  split at hp
  · rcases List.mem_cons.1 hp with rfl | h
    · exact ⟨rfl, rfl⟩
    · simp at h
  · simp at hp

theorem docPassesFilters_spec (q : SearchQuery) (path repoName : Str)
    (h : docPassesFilters q path repoName = true) :
    (∀ repos, q.repositories = some repos → repoName ∈ repos)
    ∧ (∀ pats, q.file_patterns = some pats →
        ∃ p ∈ pats, matchesPattern p (fileName path) = true) := by
  unfold docPassesFilters at h
  rw [Bool.and_eq_true] at h
  constructor
  · intro repos hre
    have h1 := h.1
    rw [hre] at h1
    simpa using h1
  · intro pats hp
    have h2 := h.2
    rw [hp] at h2
    simpa [List.any_eq_true] using h2

/-- C7 (amended): filter honesty under the source's pattern semantics.  Every
literal or symbol result's repository is in the repository filter (when one
is given), and its file name satisfies at least one file pattern, where a
pattern containing `*` is tested by removing all `*` characters and checking
substring containment, and a pattern without `*` by exact equality
(`matchesPattern`). -/
theorem filter_honesty (cfg : FuzzyConfig) (jw : Str → Str → ℚ)
    (docs : List TantivyDoc) (q : SearchQuery) :
    (∀ r ∈ literalSearch cfg jw docs q,
        (∀ repos, q.repositories = some repos → r.repository ∈ repos)
        ∧ (∀ pats, q.file_patterns = some pats →
            ∃ p ∈ pats, matchesPattern p (fileName r.file_path) = true))
    ∧ (∀ r ∈ symbolSearch docs q,
        (∀ repos, q.repositories = some repos → r.repository ∈ repos)
        ∧ (∀ pats, q.file_patterns = some pats →
            ∃ p ∈ pats, matchesPattern p (fileName r.file_path) = true)) := by
  constructor
  · intro r hr
    simp only [literalSearch] at hr
    obtain ⟨d, -, hin⟩ := List.mem_flatMap.1 hr
    split at hin
    case isTrue hfil =>
      obtain ⟨hfp, hrep⟩ := mem_findMatches_fields _ _ _ _ _ _ _ _ hin
      rw [hfp, hrep]
      exact docPassesFilters_spec q d.path d.repository hfil
    case isFalse => simp at hin
  · intro r hr
    simp only [symbolSearch] at hr
    obtain ⟨d, -, hin⟩ := List.mem_flatMap.1 hr
    split at hin
    case isTrue hfil =>
      obtain ⟨hfp, hrep⟩ := mem_findSymbolMatches_fields _ _ _ _ _ _ hin
      rw [hfp, hrep]
      exact docPassesFilters_spec q d.path d.repository hfil
    case isFalse => simp at hin

/-- C7 witness: the filtered query on `docsOne` returns `rSpec`, whose
repository and file name honour both filters. -/
theorem filter_honesty_witness :
    rSpec.repository ∈ [("r").data]
    ∧ ∃ p ∈ [("*.rs").data], matchesPattern p (fileName rSpec.file_path) = true := by
  have h := (filter_honesty fuzzyConfigDefault jw0 docsOne qFilt).1 rSpec (by decide)
  exact ⟨h.1 _ rfl, h.2 _ rfl⟩

/-- C7 counterexample: with file pattern `*.rs` the literal searcher returns
a result for file name `x.rsy`, which the specification's glob semantics
(`*` standing for any substring) rejects — so the claim's pattern semantics
does not hold of the code. -/
theorem pattern_semantics_counterexample :
    ∃ r ∈ literalSearch fuzzyConfigDefault jw0 docsRsy qLitPatRs,
      ∀ p ∈ [("*.rs").data], globMatch p (fileName r.file_path) = false := by
  decide

theorem mem_dedupFrom (prev : FuzzyMatch) (l : List FuzzyMatch) (m : FuzzyMatch)
    (h : m ∈ dedupFrom prev l) : m ∈ l := by
  induction l generalizing prev with
  | nil => simp [dedupFrom] at h
  | cons b t ih =>
    simp only [dedupFrom] at h
    split at h
    · exact .tail _ (ih _ h)
    · rcases List.mem_cons.1 h with rfl | h
      · exact .head _
      · exact .tail _ (ih _ h)

theorem mem_dedupRun (l : List FuzzyMatch) (m : FuzzyMatch)
    (h : m ∈ dedupRun l) : m ∈ l := by
  rcases l with _ | ⟨a, t⟩
  · simp [dedupRun] at h
  · simp only [dedupRun] at h
    rcases List.mem_cons.1 h with rfl | h
    · exact .head _
    · exact .tail _ (mem_dedupFrom _ _ _ h)

theorem fuzzySubstringCheck_some (cfg : FuzzyConfig) (jw : Str → Str → ℚ)
    (q t : Str) (w i : Nat) (m : FuzzyMatch)
    (h : fuzzySubstringCheck cfg jw q t w i = some m) :
    m.edit_distance = lev q m.matched_text
    ∧ m.edit_distance ≤ cfg.max_edit_distance := by
  unfold fuzzySubstringCheck at h
  dsimp only at h
  split at h
  case isTrue hg =>
    obtain rfl := Option.some.inj h
    exact ⟨rfl, hg.2⟩
  case isFalse => simp at h

theorem fuzzyWordCheck_some (cfg : FuzzyConfig) (jw : Str → Str → ℚ)
    (ql tl w : Str) (m : FuzzyMatch) (h : fuzzyWordCheck cfg jw ql tl w = some m) :
    m.edit_distance = lev ql m.matched_text
    ∧ m.edit_distance ≤ cfg.max_edit_distance := by
  unfold fuzzyWordCheck at h
  dsimp only at h
  split at h
  · simp at h
  · split at h
    case isTrue hg =>
      obtain rfl := Option.some.inj h
      exact ⟨rfl, hg.2⟩
    case isFalse => simp at h

theorem mem_findSubstringFuzzy (cfg : FuzzyConfig) (jw : Str → Str → ℚ)
    (q t : Str) (m : FuzzyMatch) (h : m ∈ findSubstringFuzzy cfg jw q t) :
    m.edit_distance = lev q m.matched_text
    ∧ m.edit_distance ≤ cfg.max_edit_distance := by
  unfold findSubstringFuzzy at h
  split at h
  · simp at h
  · obtain ⟨w, -, hw⟩ := List.mem_flatMap.1 h
    obtain ⟨i, -, hi⟩ := List.mem_filterMap.1 hw
    exact fuzzySubstringCheck_some cfg jw q t w i m hi

theorem mem_findFuzzyMatches_dist (cfg : FuzzyConfig) (jw : Str → Str → ℚ)
    (query text : Str) (m : FuzzyMatch)
    (h : m ∈ findFuzzyMatches cfg jw query text) :
    m.edit_distance = lev (toLowerStr query) m.matched_text
    ∧ m.edit_distance ≤ cfg.max_edit_distance := by
  unfold findFuzzyMatches at h
  split at h
  · simp at h
  · have h1 := mem_dedupRun _ _ h
    rw [List.mem_insertionSort] at h1
    split at h1
    · rcases List.mem_append.1 h1 with h2 | h2
      · obtain ⟨w, -, hw⟩ := List.mem_filterMap.1 h2
        exact fuzzyWordCheck_some cfg jw _ _ w m hw
      · exact mem_findSubstringFuzzy _ _ _ _ _ h2
    · obtain ⟨w, -, hw⟩ := List.mem_filterMap.1 h1
      exact fuzzyWordCheck_some cfg jw _ _ w m hw

/-- C8: every result emitted with match type `Fuzzy` stems from a fuzzy match
on its line whose recorded edit distance is the Levenshtein distance between
the lowercased query and the matched word (or window), bounded by
`max_edit_distance`; the result's column is that match's position. -/
theorem fuzzy_bound (cfg : FuzzyConfig) (jw : Str → Str → ℚ)
    (fp repo content term : Str) (score : ℚ) (r : SearchResult)
    (hr : r ∈ findMatchesInContent cfg jw fp repo content term score)
    (hft : r.match_type = .Fuzzy) :
    ∃ m, (∃ line ∈ rustLines content, m ∈ findFuzzyMatches cfg jw term line)
      ∧ r.column = m.position
      ∧ m.edit_distance = lev (toLowerStr term) m.matched_text
      ∧ m.edit_distance ≤ cfg.max_edit_distance := by
  simp only [findMatchesInContent] at hr
  split at hr
  · obtain ⟨p, hp, hin⟩ := List.mem_flatMap.1 hr
    have hline : p.2 ∈ rustLines content := mem_enumFromN _ _ _ hp
    simp only [singleWordLine] at hin
    rcases List.mem_append.1 hin with h | h
    · obtain ⟨col, -, rfl⟩ := List.mem_map.1 h
      simp [mkLineResult] at hft
    · split at h
      · obtain ⟨m, hm, rfl⟩ := List.mem_map.1 h
        have hd := mem_findFuzzyMatches_dist cfg jw term p.2 m hm
        exact ⟨m, ⟨p.2, hline, hm⟩, rfl, hd.1, hd.2⟩
      · simp at h
  · obtain ⟨p, -, hin⟩ := List.mem_flatMap.1 hr
    simp only [multiWordLine] at hin
    split at hin
    · simp at hin
    · rcases List.mem_cons.1 hin with rfl | h
      · simp [mkLineResult] at hft
      · simp at h

/-- C8 witness: the typo query `functoin` on content `function x` yields a
fuzzy result backed by the word `function` at Levenshtein distance 2. -/
theorem fuzzy_bound_witness :
    ∃ m, (∃ line ∈ rustLines ("function x").data,
        m ∈ findFuzzyMatches cfg8 jw1 ("functoin").data line)
      ∧ rFuzzy8.column = m.position
      ∧ m.edit_distance = lev (toLowerStr ("functoin").data) m.matched_text
      ∧ m.edit_distance ≤ cfg8.max_edit_distance := by
  refine fuzzy_bound cfg8 jw1 ("a/f.rs").data ("r").data ("function x").data
    ("functoin").data 1 rFuzzy8 ?_ rfl
  have hl : findMatchesInContent cfg8 jw1 ("a/f.rs").data ("r").data
      ("function x").data ("functoin").data 1 = [rFuzzy8] := rfl
  rw [hl]
  exact .head _

theorem getScore_addContrib (acc : List ((Str × Nat) × SearchResult × ℚ))
    (r : SearchResult) (c : ℚ) (k : Str × Nat) :
    getScore (addContrib acc r c) k
      = getScore acc k + (if keyOf r = k then c else 0) := by
  induction acc with
  | nil =>
    simp only [addContrib, getScore]
    by_cases h2 : keyOf r = k <;> simp [h2]
  | cons kv t ih =>
    rcases kv with ⟨k', r', s'⟩
    by_cases h1 : k' = keyOf r
    · simp only [addContrib, if_pos h1, getScore]
      by_cases h2 : k' = k
      · have hk : keyOf r = k := h1 ▸ h2
        simp [h2, hk]
      · have hk : ¬ keyOf r = k := fun hh => h2 (h1.trans hh)
        simp [h2, hk]
    · simp only [addContrib, if_neg h1, getScore]
      by_cases h2 : k' = k
      · have hk : ¬ keyOf r = k := fun hh => h1 (h2.trans hh.symm)
        simp [h2, hk]
      · simp [h2, ih]

theorem getScore_feedList (L : List SearchResult)
    (acc : List ((Str × Nat) × SearchResult × ℚ)) (i : Nat) (k : Str × Nat) :
    getScore (feedList acc i L) k = getScore acc k + listContrib L k i := by
  induction L generalizing acc i with
  | nil => simp [feedList, listContrib]
  | cons r rs ih =>
    simp only [feedList, listContrib]
    rw [ih, getScore_addContrib]
    ring

theorem addContrib_keyInv (acc : List ((Str × Nat) × SearchResult × ℚ))
    (r : SearchResult) (c : ℚ) (h : ∀ e ∈ acc, keyOf e.2.1 = e.1) :
    ∀ e ∈ addContrib acc r c, keyOf e.2.1 = e.1 := by
  induction acc with
  | nil =>
    intro e he
    simp only [addContrib] at he
    rcases List.mem_cons.1 he with rfl | h0
    · rfl
    · simp at h0
  | cons kv t ih =>
    rcases kv with ⟨k', r', s'⟩
    intro e he
    simp only [addContrib] at he
    split at he
    · rcases List.mem_cons.1 he with rfl | h0
      · exact h (k', r', s') (List.mem_cons_self _ _)
      · exact h _ (List.mem_cons_of_mem _ h0)
    · rcases List.mem_cons.1 he with rfl | h0
      · exact h _ (List.mem_cons_self _ _)
      · exact ih (fun e' he' => h e' (List.mem_cons_of_mem _ he')) e h0

theorem keys_addContrib (acc : List ((Str × Nat) × SearchResult × ℚ))
    (r : SearchResult) (c : ℚ) :
    (addContrib acc r c).map Prod.fst
      = if keyOf r ∈ acc.map Prod.fst then acc.map Prod.fst
        else acc.map Prod.fst ++ [keyOf r] := by
  induction acc with
  | nil => simp [addContrib]
  | cons kv t ih =>
    rcases kv with ⟨k', r', s'⟩
    by_cases h1 : k' = keyOf r
    · subst h1
      simp only [addContrib, eq_self_iff_true, if_true, List.map_cons]
      rw [if_pos (List.mem_cons_self _ _)]
    · have hne : ¬ keyOf r = k' := fun hh => h1 hh.symm
      by_cases h2 : keyOf r ∈ t.map Prod.fst <;>
        simp [addContrib, if_neg h1, ih, h2, List.mem_cons, hne]

theorem nodup_keys_addContrib (acc : List ((Str × Nat) × SearchResult × ℚ))
    (r : SearchResult) (c : ℚ) (h : (acc.map Prod.fst).Nodup) :
    ((addContrib acc r c).map Prod.fst).Nodup := by
  rw [keys_addContrib]
  split
  · exact h
  · rw [List.nodup_append]
    exact ⟨h, List.nodup_singleton _, by
      intro a ha hb
      rcases List.mem_singleton.1 hb with rfl
      exact ‹keyOf r ∉ acc.map Prod.fst› ha⟩

theorem feedList_inv (L : List SearchResult)
    (acc : List ((Str × Nat) × SearchResult × ℚ)) (i : Nat)
    (h1 : ∀ e ∈ acc, keyOf e.2.1 = e.1) (h2 : (acc.map Prod.fst).Nodup) :
    (∀ e ∈ feedList acc i L, keyOf e.2.1 = e.1)
    ∧ ((feedList acc i L).map Prod.fst).Nodup := by
  induction L generalizing acc i with
  | nil => exact ⟨h1, h2⟩
  | cons r rs ih =>
    simp only [feedList]
    exact ih _ _ (addContrib_keyInv _ _ _ h1) (nodup_keys_addContrib _ _ _ h2)

theorem hybridAcc_inv (lit sym sem : List SearchResult) :
    (∀ e ∈ hybridAcc lit sym sem, keyOf e.2.1 = e.1)
    ∧ ((hybridAcc lit sym sem).map Prod.fst).Nodup := by
  unfold hybridAcc
  have s1 := feedList_inv lit [] 0 (by simp) (by simp)
  have s2 := feedList_inv sym _ 0 s1.1 s1.2
  exact feedList_inv sem _ 0 s2.1 s2.2

theorem hybridAcc_getScore (lit sym sem : List SearchResult) (k : Str × Nat) :
    getScore (hybridAcc lit sym sem) k = fusedScore lit sym sem k := by
  unfold hybridAcc fusedScore
  rw [getScore_feedList, getScore_feedList, getScore_feedList]
  simp [getScore]

theorem getScore_of_mem (acc : List ((Str × Nat) × SearchResult × ℚ))
    (e : (Str × Nat) × SearchResult × ℚ) (hkeys : (acc.map Prod.fst).Nodup)
    (he : e ∈ acc) : getScore acc e.1 = e.2.2 := by
  induction acc with
  | nil => simp at he
  | cons kv t ih =>
    rcases kv with ⟨k', r', s'⟩
    simp only [List.map_cons, List.nodup_cons] at hkeys
    rcases List.mem_cons.1 he with heq | he'
    · subst heq
      simp [getScore]
    · have hne : k' ≠ e.1 := fun hh =>
        hkeys.1 (hh ▸ List.mem_map_of_mem Prod.fst he')
      simp only [getScore, if_neg hne]
      exact ih hkeys.2 he'

theorem hybridFuseVals_sorted (vals : List (SearchResult × ℚ)) :
    (hybridFuseVals vals).Sorted (fun a b => b.score ≤ a.score) := by
  unfold hybridFuseVals
  have hs : (List.insertionSort scoreGE vals).Sorted scoreGE :=
    List.sorted_insertionSort scoreGE vals
  exact List.Pairwise.map _ (fun a b hab => hab) hs

/-- C4: reciprocal-rank fusion.  For any order in which the accumulator's
values are collected (`HashMap::into_values` is unordered), the hybrid output
is sorted by fused score in descending order, and every returned result's
score equals the summed contribution `1 / (60 + rank)` (rank 1-based) of its
`(file_path, line_number)` key over the literal, symbol and semantic lists. -/
theorem hybrid_rrf (lit sym sem : List SearchResult)
    (vals : List (SearchResult × ℚ))
    (hperm : vals.Perm ((hybridAcc lit sym sem).map (fun e => e.2))) :
    (hybridFuseVals vals).Sorted (fun a b => b.score ≤ a.score)
    ∧ ∀ r ∈ hybridFuseVals vals,
        r.score = fusedScore lit sym sem (keyOf r) := by
  refine ⟨hybridFuseVals_sorted vals, ?_⟩
  intro r hr
  unfold hybridFuseVals at hr
  obtain ⟨v, hv, rfl⟩ := List.mem_map.1 hr
  have hv2 : v ∈ vals := (List.mem_insertionSort _).1 hv
  have hv3 := hperm.mem_iff.1 hv2
  obtain ⟨e, he, hev⟩ := List.mem_map.1 hv3
  obtain ⟨hinv, hnd⟩ := hybridAcc_inv lit sym sem
  have hkey : keyOf e.2.1 = e.1 := hinv e he
  have hscore := getScore_of_mem _ _ hnd he
  subst hev
  show e.2.2 = fusedScore lit sym sem (keyOf e.2.1)
  rw [hkey, ← hybridAcc_getScore, hscore]

/-- C4 witness: two one-element retriever lists with distinct keys. -/
theorem hybrid_rrf_witness :
    (hybridFuseVals ((hybridAcc [resA] [resB] []).map (fun e => e.2))).Sorted
        (fun a b => b.score ≤ a.score)
    ∧ ∀ r ∈ hybridFuseVals ((hybridAcc [resA] [resB] []).map (fun e => e.2)),
        r.score = fusedScore [resA] [resB] [] (keyOf r) :=
  hybrid_rrf [resA] [resB] [] _ (List.Perm.refl _)

/-- C5 (amended): the hybrid searcher's output is sorted by fused score in
descending order (ties follow the accumulator's iteration order, which the
`HashMap` leaves unspecified); retriever result lists themselves are emitted
in document/line production order, not necessarily higher-score-first. -/
theorem hybrid_sorted_desc (lit sym sem : List SearchResult) :
    (hybridFuse lit sym sem).Sorted (fun a b => b.score ≤ a.score) :=
  hybridFuseVals_sorted _

/-- C5 counterexample: the literal retriever returns, for a multi-word query,
a line matching one word before a line matching two words; the second result
carries the 1.5x-boosted (strictly greater) score, so the retriever's list is
not ordered higher-score-first. -/
theorem retriever_order_counterexample :
    ¬ (literalSearch fuzzyConfigDefault jw0 docsMulti qMulti).Sorted
        (fun a b => b.score ≤ a.score) := by
  intro h
  have hl : literalSearch fuzzyConfigDefault jw0 docsMulti qMulti
      = [rMultiA, rMultiB] := rfl
  rw [hl] at h
  have h2 := (List.sorted_cons.1 h).1 rMultiB (List.mem_cons_self _ _)
  norm_num [rMultiA, rMultiB, mkLineResult] at h2

theorem isWS_lowerChar (c : Char) : isWS (lowerChar c) = isWS c := by
  unfold lowerChar
  split <;> rfl

theorem wordSep_lowerChar (c : Char) :
    (isWS (lowerChar c) || isAsciiPunct (lowerChar c))
      = (isWS c || isAsciiPunct c) := by
  unfold lowerChar
  split <;> rfl

theorem length_toLowerStr (s : Str) : (toLowerStr s).length = s.length := by
  simp [toLowerStr]

theorem isEmpty_toLowerStr (s : Str) : (toLowerStr s).isEmpty = s.isEmpty := by
  cases s <;> rfl

theorem splitSepGroups_ne_nil (p : Char → Bool) (s : Str) :
    splitSepGroups p s ≠ [] := by
  induction s with
  | nil => simp [splitSepGroups]
  | cons c cs ih =>
    simp only [splitSepGroups]
    split
    · simp
    · split <;> simp

theorem splitSepGroups_toLower (p : Char → Bool)
    (hp : ∀ c, p (lowerChar c) = p c) (s : Str) :
    splitSepGroups p (toLowerStr s)
      = (splitSepGroups p s).map toLowerStr := by
  induction s with
  | nil => simp [toLowerStr, splitSepGroups]
  | cons c cs ih =>
    rcases hgs : splitSepGroups p cs with _ | ⟨w, ws⟩
    · exact absurd hgs (splitSepGroups_ne_nil p cs)
    · show splitSepGroups p (lowerChar c :: toLowerStr cs)
        = (splitSepGroups p (c :: cs)).map toLowerStr
      have ih' : splitSepGroups p (List.map lowerChar cs)
          = List.map toLowerStr (splitSepGroups p cs) := ih
      simp only [splitSepGroups, hp c]
      by_cases hc : p c = true
      · simp [hc, ih', hgs, toLowerStr]
      · simp [hc, ih', hgs, toLowerStr]

theorem splitWS_toLower (s : Str) :
    splitWS (toLowerStr s) = (splitWS s).map toLowerStr := by
  unfold splitWS
  rw [splitSepGroups_toLower isWS isWS_lowerChar s, List.filter_map]
  congr 1
  apply List.filter_congr
  intro w _
  simp [Function.comp, isEmpty_toLowerStr]

theorem findFuzzyMatches_congr (cfg : FuzzyConfig) (jw : Str → Str → ℚ)
    (q q' t : Str) (hq : toLowerStr q = toLowerStr q') :
    findFuzzyMatches cfg jw q t = findFuzzyMatches cfg jw q' t := by
  have hemp : q.isEmpty = q'.isEmpty := by
    rw [← isEmpty_toLowerStr, hq, isEmpty_toLowerStr]
  simp only [findFuzzyMatches, hq, hemp]

theorem singleWordLine_congr (cfg : FuzzyConfig) (jw : Str → Str → ℚ)
    (lines : List Str) (fp repo term term' : Str) (score : ℚ) (i : Nat)
    (line : Str) (hq : toLowerStr term = toLowerStr term') :
    singleWordLine cfg jw lines fp repo term score i line
      = singleWordLine cfg jw lines fp repo term' score i line := by
  have hlen : term.length = term'.length := by
    rw [← length_toLowerStr, hq, length_toLowerStr]
  simp only [singleWordLine, hq, hlen,
    findFuzzyMatches_congr cfg jw term term' line hq]

theorem findMatchesInContent_query_case (cfg : FuzzyConfig)
    (jw : Str → Str → ℚ) (fp repo content term term' : Str) (score : ℚ)
    (hq : toLowerStr term = toLowerStr term') :
    findMatchesInContent cfg jw fp repo content term score
      = findMatchesInContent cfg jw fp repo content term' score := by
  have hsw : (splitWS term).map toLowerStr = (splitWS term').map toLowerStr := by
    rw [← splitWS_toLower, ← splitWS_toLower, hq]
  simp only [findMatchesInContent, hsw]
  split
  · have hfun : (fun p : Nat × Str =>
        singleWordLine cfg jw (rustLines content) fp repo term score p.1 p.2)
        = (fun p : Nat × Str =>
        singleWordLine cfg jw (rustLines content) fp repo term' score p.1 p.2) :=
      funext fun p =>
        singleWordLine_congr cfg jw (rustLines content) fp repo term term'
          score p.1 p.2 hq
    rw [hfun]
  · rfl

theorem singleWordLine_proj (cfg : FuzzyConfig) (jw : Str → Str → ℚ)
    (lines : List Str) (fp repo term : Str) (score : ℚ) (i : Nat) (line : Str) :
    ((singleWordLine cfg jw lines fp repo term score i line).filter
        (fun r => r.match_type == MatchType.Exact)).map
        (fun r => (r.line_number, r.column))
      = (occurrences (toLowerStr term) term.length (toLowerStr line)).map
          (fun col => (i + 1, col)) := by
  simp only [singleWordLine, List.filter_append, List.map_append]
  have h1 :
      ((((occurrences (toLowerStr term) term.length (toLowerStr line)).map
          (fun col => mkLineResult lines fp repo i line col score .Exact)).filter
        (fun r => r.match_type == MatchType.Exact)).map
        (fun r => (r.line_number, r.column)))
      = (occurrences (toLowerStr term) term.length (toLowerStr line)).map
          (fun col => (i + 1, col)) := by
    rw [List.filter_map]
    rw [show ((fun r : SearchResult => r.match_type == MatchType.Exact) ∘
        (fun col => mkLineResult lines fp repo i line col score .Exact))
        = fun _ => true from funext fun _ => rfl]
    rw [List.filter_true, List.map_map]
    rw [show ((fun r : SearchResult => (r.line_number, r.column)) ∘
        (fun col => mkLineResult lines fp repo i line col score .Exact))
        = fun col => (i + 1, col) from funext fun _ => rfl]
  have h2 :
      (((if cfg.enabled ∧ ¬ containsSub (toLowerStr line) (toLowerStr term) then
          (findFuzzyMatches cfg jw term line).map (fun m =>
            mkLineResult lines fp repo i line m.position
              (score * m.similarity) .Fuzzy)
        else []).filter (fun r => r.match_type == MatchType.Exact)).map
        (fun r => (r.line_number, r.column))) = [] := by
    split
    · rw [List.filter_map]
      rw [show ((fun r : SearchResult => r.match_type == MatchType.Exact) ∘
          (fun m : FuzzyMatch => mkLineResult lines fp repo i line m.position
            (score * m.similarity) .Fuzzy)) = fun _ => false from funext fun _ => rfl]
      rw [List.filter_false]
      rfl
    · rfl
  rw [h1, h2, List.append_nil]

theorem multiWordLine_proj (lines : List Str) (fp repo : Str)
    (searchWords : List Str) (score : ℚ) (i : Nat) (line : Str) :
    ((multiWordLine lines fp repo searchWords score i line).filter
        (fun r => r.match_type == MatchType.Exact)).map
        (fun r => (r.line_number, r.column))
      = (match searchWords.filterMap (fun w => findSub (toLowerStr line) w) with
         | [] => []
         | c :: _ => [(i + 1, c)]) := by
  rcases hwp : searchWords.filterMap (fun w => findSub (toLowerStr line) w)
    with _ | ⟨c, rest⟩ <;>
    simp [multiWordLine, hwp, mkLineResult]

theorem projEnum_congr (f g : Nat → Str → List SearchResult)
    (F : Nat → Str → List (Nat × Nat))
    (hf : ∀ i line, ((f i line).filter
        (fun r => r.match_type == MatchType.Exact)).map
        (fun r => (r.line_number, r.column)) = F i (toLowerStr line))
    (hg : ∀ i line, ((g i line).filter
        (fun r => r.match_type == MatchType.Exact)).map
        (fun r => (r.line_number, r.column)) = F i (toLowerStr line))
    (n : Nat) (lines lines' : List Str)
    (h : lines.map toLowerStr = lines'.map toLowerStr) :
    (((enumFromN n lines).flatMap (fun p => f p.1 p.2)).filter
        (fun r => r.match_type == MatchType.Exact)).map
        (fun r => (r.line_number, r.column))
      = (((enumFromN n lines').flatMap (fun p => g p.1 p.2)).filter
        (fun r => r.match_type == MatchType.Exact)).map
        (fun r => (r.line_number, r.column)) := by
  induction lines generalizing n lines' with
  | nil =>
    rcases lines' with _ | ⟨a', t'⟩
    · rfl
    · simp at h
  | cons a t ih =>
    rcases lines' with _ | ⟨a', t'⟩
    · simp at h
    · simp only [List.map_cons, List.cons.injEq] at h
      simp only [enumFromN, List.flatMap_cons, List.filter_append,
        List.map_append]
      rw [hf n a, hg n a', h.1, ih (n + 1) t' h.2]

theorem findMatchesInContent_content_case (cfg : FuzzyConfig)
    (jw : Str → Str → ℚ) (fp repo content content' term : Str) (score : ℚ)
    (hc : (rustLines content).map toLowerStr
        = (rustLines content').map toLowerStr) :
    ((findMatchesInContent cfg jw fp repo content term score).filter
        (fun r => r.match_type == MatchType.Exact)).map
        (fun r => (r.line_number, r.column))
      = ((findMatchesInContent cfg jw fp repo content' term score).filter
        (fun r => r.match_type == MatchType.Exact)).map
        (fun r => (r.line_number, r.column)) := by
  simp only [findMatchesInContent]
  split
  · exact projEnum_congr
      (fun i l => singleWordLine cfg jw (rustLines content) fp repo term score i l)
      (fun i l => singleWordLine cfg jw (rustLines content') fp repo term score i l)
      (fun i ll => (occurrences (toLowerStr term) term.length ll).map
        (fun col => (i + 1, col)))
      (fun i l => singleWordLine_proj cfg jw (rustLines content) fp repo term score i l)
      (fun i l => singleWordLine_proj cfg jw (rustLines content') fp repo term score i l)
      0 _ _ hc
  · exact projEnum_congr
      (fun i l => multiWordLine (rustLines content) fp repo
        ((splitWS term).map toLowerStr) score i l)
      (fun i l => multiWordLine (rustLines content') fp repo
        ((splitWS term).map toLowerStr) score i l)
      (fun i ll => match ((splitWS term).map toLowerStr).filterMap
          (fun w => findSub ll w) with
        | [] => []
        | c :: _ => [(i + 1, c)])
      (fun i l => multiWordLine_proj (rustLines content) fp repo _ score i l)
      (fun i l => multiWordLine_proj (rustLines content') fp repo _ score i l)
      0 _ _ hc

/-- C10: literal matching is case-insensitive.  (i) Two queries with equal
lowercasings produce identical literal match lists for any content; (ii) two
contents whose lines agree up to letter case produce exact-match results with
identical (line number, column) projections — occurrences are matched against
the lowercased line regardless of the content's case.  Strings are modelled
character-wise, so byte and character positions coincide (exact for ASCII). -/
theorem literal_case_insensitive (cfg : FuzzyConfig) (jw : Str → Str → ℚ)
    (fp repo content content' term term' : Str) (score : ℚ)
    (hq : toLowerStr term = toLowerStr term')
    (hc : (rustLines content).map toLowerStr
        = (rustLines content').map toLowerStr) :
    findMatchesInContent cfg jw fp repo content term score
        = findMatchesInContent cfg jw fp repo content term' score
    ∧ ((findMatchesInContent cfg jw fp repo content term score).filter
          (fun r => r.match_type == MatchType.Exact)).map
          (fun r => (r.line_number, r.column))
        = ((findMatchesInContent cfg jw fp repo content' term score).filter
          (fun r => r.match_type == MatchType.Exact)).map
          (fun r => (r.line_number, r.column)) :=
  ⟨findMatchesInContent_query_case cfg jw fp repo content term term' score hq,
    findMatchesInContent_content_case cfg jw fp repo content content' term score hc⟩

/-- C10 witness: query `FOO` behaves as `foo`, and content `FOO` yields the
same exact-match positions as content `foo`. -/
theorem literal_case_insensitive_witness :
    findMatchesInContent fuzzyConfigDefault jw0 ("a").data ("r").data
        ("foo").data ("FOO").data 1
      = findMatchesInContent fuzzyConfigDefault jw0 ("a").data ("r").data
        ("foo").data ("foo").data 1
    ∧ ((findMatchesInContent fuzzyConfigDefault jw0 ("a").data ("r").data
          ("foo").data ("FOO").data 1).filter
          (fun r => r.match_type == MatchType.Exact)).map
          (fun r => (r.line_number, r.column))
        = ((findMatchesInContent fuzzyConfigDefault jw0 ("a").data ("r").data
          ("FOO").data ("FOO").data 1).filter
          (fun r => r.match_type == MatchType.Exact)).map
          (fun r => (r.line_number, r.column)) :=
  literal_case_insensitive fuzzyConfigDefault jw0 ("a").data ("r").data
    ("foo").data ("FOO").data ("FOO").data ("foo").data 1 (by decide) (by decide)

end Rune
